import Mathlib

/-!
# Verification of the Source §1 syntactic-analysis evaluator

Shallow embedding of `src/evaluators/source-1-syntactic-analysis.js`:
an environment-based evaluator that separates a one-time structural
analysis pass from execution against concrete environments.

Modelling choices (all spelled out where they occur):
* Tagged lists of the JS source become closed inductive types.
* JS numbers are modelled as `Int` (the claims under verification do not
  involve floating-point behaviour; host arithmetic is an external
  collaborator in the source).
* The mutable value cells of environment frames (the source mutates
  slots in place via `set_head`) are modelled by a store: a frame maps
  names to store addresses, and the store maps addresses to slots.
  A slot is `Option Value`; `none` models the `no_value_yet` sentinel.
* The analyzed executables (`env => ...` closures of the source) are
  defunctionalised: analysis produces an `AStmt` tree in which blocks and
  function definitions carry their pre-computed direct local names, and
  `execute` runs an `AStmt`.  Analysis-time errors (duplicate local
  declarations) are raised by `analyze`, before any execution, exactly as
  in the source.
* Recursion through compound-function application is not structural, so
  `execute` takes a fuel parameter; fuel exhaustion is a distinguished
  error (`outOfFuel`), modelling native-stack exhaustion.
-/

/-- Self-evaluating syntax: numbers, strings and booleans
(`is_self_evaluating` in the source). -/
inductive Lit where
  | num (n : Int)
  | str (s : String)
  | bool (b : Bool)
deriving DecidableEq, Repr

/-- Syntax nodes, as produced by the external parser.  One constructor per
tagged-list kind of the source.  Function parameters are stored directly as
strings (the source stores `list("name", s)` nodes and applies
`name_of_name` when the frame is built). -/
inductive Stmt where
  | lit (l : Lit)
  | name (s : String)
  | constDecl (n : String) (value : Stmt)
  | cond (pred cons alt : Stmt)
  | funcDef (params : List String) (body : Stmt)
  | seq (stmts : List Stmt)
  | block (body : Stmt)
  | ret (expr : Stmt)
  | app (op : Stmt) (args : List Stmt)
deriving Repr

/-- The fatal errors of the evaluator (`error(...)` calls in the source),
plus `outOfFuel` for the fuel-indexed execution model. -/
inductive EvalError where
  | unboundName (n : String)
  | usedBeforeDecl (n : String)
  | multipleDecls (n : String)
  | tooManyArgs
  | tooFewArgs
  | returnOutsideFunction
  | unknownFunctionType
  | internalNameNotFound
  | hostError
  | outOfFuel
deriving DecidableEq, Repr

/-- `insert_all(xs, ys)`: prepend the names `xs` to `ys`, raising
`multiple declarations of:` on the first element of `xs` already in `ys`. -/
def insert_all : List String → List String → Except EvalError (List String)
  | [], ys => .ok ys
  | x :: xs, ys =>
    if x ∈ ys then .error (.multipleDecls x)
    else
      match insert_all xs ys with
      | .error e => .error e
      | .ok zs => .ok (x :: zs)

mutual

/-- `local_names(stmt)`: the names declared directly in `stmt`, outside any
nested block or function.  Duplicates raise `multiple declarations`. -/
def local_names : Stmt → Except EvalError (List String)
  | .seq stmts => local_names_seq stmts
  | .constDecl n _ => .ok [n]
  | _ => .ok []

/-- Direct local names of the statements of a sequence: the source recurses
with `insert_all(local_names(first), local_names(make_sequence(rest)))`. -/
def local_names_seq : List Stmt → Except EvalError (List String)
  | [] => .ok []
  | s :: rest =>
    match local_names s with
    | .error e => .error e
    | .ok l1 =>
      match local_names_seq rest with
      | .error e => .error e
      | .ok l2 => insert_all l1 l2

end

/-- Analyzed syntax: the defunctionalised executables produced by `analyze`.
Blocks and function definitions carry the direct local names that the
source's `analyze_block` / `analyze_function_definition` pre-compute. -/
inductive AStmt where
  | lit (l : Lit)
  | name (s : String)
  | constDecl (n : String) (value : AStmt)
  | cond (pred cons alt : AStmt)
  | funcDef (params : List String) (locals : List String) (body : AStmt)
  | seq (stmts : List AStmt)
  | block (locals : List String) (body : AStmt)
  | ret (expr : AStmt)
  | app (op : AStmt) (args : List AStmt)
deriving Repr

mutual

/-- `analyze(stmt)`: dispatch on the node kind, pre-computing local names
for blocks and function definitions (in the source's order: locals first,
then the body).  Errors raised here occur before any execution. -/
def analyze : Stmt → Except EvalError AStmt
  | .lit l => .ok (.lit l)
  | .name s => .ok (.name s)
  | .constDecl n v =>
    match analyze v with
    | .error e => .error e
    | .ok av => .ok (.constDecl n av)
  | .cond p c a =>
    match analyze p with
    | .error e => .error e
    | .ok ap =>
      match analyze c with
      | .error e => .error e
      | .ok ac =>
        match analyze a with
        | .error e => .error e
        | .ok aa => .ok (.cond ap ac aa)
  | .funcDef ps body =>
    match local_names body with
    | .error e => .error e
    | .ok locals =>
      match analyze body with
      | .error e => .error e
      | .ok ab => .ok (.funcDef ps locals ab)
  | .seq stmts =>
    match analyze_list stmts with
    | .error e => .error e
    | .ok as_ => .ok (.seq as_)
  | .block body =>
    match local_names body with
    | .error e => .error e
    | .ok locals =>
      match analyze body with
      | .error e => .error e
      | .ok ab => .ok (.block locals ab)
  | .ret e =>
    match analyze e with
    | .error er => .error er
    | .ok ae => .ok (.ret ae)
  | .app op args =>
    match analyze op with
    | .error e => .error e
    | .ok aop =>
      match analyze_list args with
      | .error e => .error e
      | .ok aargs => .ok (.app aop aargs)

/-- `map(analyze, stmts)` of the source, with error propagation. -/
def analyze_list : List Stmt → Except EvalError (List AStmt)
  | [] => .ok []
  | s :: rest =>
    match analyze s with
    | .error e => .error e
    | .ok a =>
      match analyze_list rest with
      | .error e => .error e
      | .ok as_ => .ok (a :: as_)

end

/- ENVIRONMENTS

Frames in the source are pairs of a name list and a list of mutable value
pairs (`pair(value, is_variable)`); `set_name_value` mutates a pair in
place via `set_head`, and every closure created in a scope shares that
scope's frame.  The mutable pairs are modelled by a store: a frame keeps,
in parallel with its names, the store addresses of its slots.  The
`is_variable` flag is constantly `false` in Source §1 and never read, so
it is not modelled. -/

/-- One scope's bindings: names in order, with the store address of each
name's slot (`make_frame(names, values)` of the source). -/
structure Frame where
  names : List String
  addrs : List Nat
deriving Repr

/-- An environment is a chain of frames, innermost first; the empty list is
the terminal (empty) environment. -/
abbrev Env := List Frame

/-- The host primitive operations bound in the global environment
(`primitive_functions` of the source).  Their implementations are external
collaborators (host JavaScript); they are modelled on the embedded value
domain below. -/
inductive PrimOp where
  | display
  | errorOp
  | add
  | sub
  | mul
  | divOp
  | modOp
  | eqOp
  | neqOp
  | ltOp
  | leOp
  | gtOp
  | geOp
  | notOp
deriving DecidableEq, Repr

/-- Runtime values.  `compound` is `make_compound_function(parameters,
locals, body, env)` — the body is the analyzed body, the environment is the
captured defining environment.  `return_value` is the tagged Return Value
marker.  `undef` is JavaScript `undefined`, `nullv` is `null`. -/
inductive Value where
  | num (n : Int)
  | str (s : String)
  | bool (b : Bool)
  | undef
  | nullv
  | primitive (p : PrimOp)
  | compound (params : List String) (locals : List String) (body : AStmt) (env : Env)
  | return_value (content : Value)
deriving Repr

/-- A slot of a frame: the (mutable) head of a source value pair.
`none` models the `no_value_yet` sentinel. -/
abbrev Slot := Option Value

/-- The store of slots; frame addresses index into it. -/
abbrev Store := List Slot

/-- `make_compound_function(parameters, locals, body, env)`. -/
def make_compound_function (parameters locals : List String) (body : AStmt)
    (env : Env) : Value :=
  Value.compound parameters locals body env

/-- `make_return_value(content)`. -/
def make_return_value (content : Value) : Value :=
  Value.return_value content

/-- `is_return_value(value)`. -/
def is_return_value : Value → Bool
  | .return_value _ => true
  | _ => false

/-- `return_value_content(value)`; only applied to values that satisfy
`is_return_value` (the source would read `head(tail(value))`). -/
def return_value_content : Value → Value
  | .return_value c => c
  | v => v

/-- `is_true(x)`, i.e. `x === true`: only the boolean `true` qualifies. -/
def is_true : Value → Bool
  | .bool true => true
  | _ => false

/-- `enclose_by(frame, env)`. -/
def enclose_by (frame : Frame) (env : Env) : Env :=
  frame :: env

/-- The inner `scan` of `lookup_name_value`: walk names and slot addresses
in parallel; `none` means the name is not in this frame (the source then
recurses to the enclosing environment). -/
def lookup_scan (name : String) : List String → List Nat → Option Nat
  | [], _ => none
  | _ :: _, [] => none
  | n :: ns, a :: as_ => if name = n then some a else lookup_scan name ns as_

/-- `lookup_name_value(name, env)`: scan the innermost frame; on a match
return the slot's value unless it is still the `no_value_yet` sentinel
(`Name used before declaration:`); on no match recurse to the enclosing
environment; in the empty environment raise `Unbound name:`.  A dangling
address cannot arise from the evaluator's own allocations; it is mapped to
an internal error to keep the function total. -/
def lookup_name_value (name : String) : Env → Store → Except EvalError Value
  | [], _ => .error (.unboundName name)
  | f :: rest, store =>
    match lookup_scan name f.names f.addrs with
    | none => lookup_name_value name rest store
    | some a =>
      match store[a]? with
      | some (some v) => .ok v
      | some none => .error (.usedBeforeDecl name)
      | none => .error .internalNameNotFound

/-- The inner `scan` of `set_name_value`: find the name in the innermost
frame and overwrite its slot (`set_head(head(vals), val)`); a missing name
is the source's `"internal error: name not found"`. -/
def set_scan (name : String) (val : Value) :
    List String → List Nat → Store → Except EvalError Store
  | [], _, _ => .error .internalNameNotFound
  | _ :: _, [], _ => .error .internalNameNotFound
  | n :: ns, a :: as_, store =>
    if name = n then .ok (store.set a (some val)) else set_scan name val ns as_ store

/-- `set_name_value(name, val, env)`: initialise the existing slot for
`name` in the first (innermost) frame. -/
def set_name_value (name : String) (val : Value) : Env → Store → Except EvalError Store
  | [], _ => .error .internalNameNotFound
  | f :: _, store => set_scan name val f.names f.addrs store

/-- Fresh addresses for `n` new slots appended to `store`. -/
def make_addrs (store : Store) (n : Nat) : List Nat :=
  (List.range n).map (fun i => store.length + i)

/-- `extend_environment(names, vals, base_env)`: with matching lengths,
allocate one new frame over `base_env` whose slots hold `vals`; more values
than names is `Too many arguments supplied`, fewer is `Too few`. -/
def extend_environment (names : List String) (vals : List Slot) (base_env : Env)
    (store : Store) : Except EvalError (Env × Store) :=
  if names.length = vals.length then
    .ok (enclose_by (Frame.mk names (make_addrs store vals.length)) base_env,
         store ++ vals)
  else if names.length < vals.length then .error .tooManyArgs
  else .error .tooFewArgs

/-- `literal_value` : a self-evaluating node represents itself. -/
def literal_value : Lit → Value
  | .num n => .num n
  | .str s => .str s
  | .bool b => .bool b

/-- The overloaded `minus(x, y)` of the source: binary minus on two
numbers, otherwise unary minus on the first argument. -/
def minus (x y : Value) : Except EvalError Value :=
  match x, y with
  | .num a, .num b => .ok (.num (a - b))
  | .num a, _ => .ok (.num (-a))
  | _, _ => .error .hostError

/-- JavaScript strict equality `===` restricted to the embedded value
domain.  Reference equality on function values is outside the model and
conservatively `false`. -/
def js_strict_eq : Value → Value → Bool
  | .num a, .num b => a == b
  | .str a, .str b => a == b
  | .bool a, .bool b => a == b
  | .undef, .undef => true
  | .nullv, .nullv => true
  | _, _ => false

/-- `apply_primitive_function(fun, argument_list)`: the host
implementations of `primitive_functions`, modelled on the embedded value
domain (host JavaScript coercions outside this domain are mapped to
`hostError`).  As in the source, arity is whatever the host operation
expects: extra arguments are ignored. -/
def apply_primitive_function (p : PrimOp) (args : List Value) : Except EvalError Value :=
  match p, args with
  | .display, v :: _ => .ok v
  | .errorOp, _ => .error .hostError
  | .add, .num a :: .num b :: _ => .ok (.num (a + b))
  | .add, .str a :: .str b :: _ => .ok (.str (a ++ b))
  | .sub, x :: y :: _ => minus x y
  | .sub, [x] => minus x .undef
  | .mul, .num a :: .num b :: _ => .ok (.num (a * b))
  | .divOp, .num a :: .num b :: _ => .ok (.num (a / b))
  | .modOp, .num a :: .num b :: _ => .ok (.num (a % b))
  | .eqOp, a :: b :: _ => .ok (.bool (js_strict_eq a b))
  | .neqOp, a :: b :: _ => .ok (.bool (!js_strict_eq a b))
  | .ltOp, .num a :: .num b :: _ => .ok (.bool (decide (a < b)))
  | .leOp, .num a :: .num b :: _ => .ok (.bool (decide (a ≤ b)))
  | .gtOp, .num a :: .num b :: _ => .ok (.bool (decide (b < a)))
  | .geOp, .num a :: .num b :: _ => .ok (.bool (decide (b ≤ a)))
  | .notOp, .bool b :: _ => .ok (.bool (!b))
  | _, _ => .error .hostError

/- EXECUTION

The analyzed executables are run by `execute`; the fuel parameter models
the native call stack and every recursive call decrements it, so all four
functions are structurally recursive in the fuel and reduce inside the
kernel.  `execute_list` is the `map(arg_func => arg_func(env), arg_funcs)`
of `analyze_application`; `execute_sequence` is the chain of
`sequentially` executables built by `analyze_sequence` (left-to-right,
first Return Value marker wins); `execute_application` is the apply
protocol. -/

mutual

/-- Run one analyzed node in an environment against a store. -/
def execute : Nat → AStmt → Env → Store → Except EvalError (Value × Store)
  | 0, _, _, _ => .error .outOfFuel
  | fuel + 1, stmt, env, store =>
    match stmt with
    | .lit l => .ok (literal_value l, store)
    | .name n =>
      match lookup_name_value n env store with
      | .error e => .error e
      | .ok v => .ok (v, store)
    | .constDecl n vexpr =>
      match execute fuel vexpr env store with
      | .error e => .error e
      | .ok (val, store1) =>
        match set_name_value n val env store1 with
        | .error e => .error e
        | .ok store2 => .ok (Value.undef, store2)
    | .cond p c a =>
      match execute fuel p env store with
      | .error e => .error e
      | .ok (pv, store1) =>
        if is_true pv then execute fuel c env store1 else execute fuel a env store1
    | .funcDef ps locals body => .ok (make_compound_function ps locals body env, store)
    | .seq stmts => execute_sequence fuel stmts env store
    | .block locals body =>
      match extend_environment locals (locals.map (fun _ => none)) env store with
      | .error e => .error e
      | .ok (env1, store1) => execute fuel body env1 store1
    | .ret e =>
      match execute fuel e env store with
      | .error er => .error er
      | .ok (v, store1) => .ok (make_return_value v, store1)
    | .app op args =>
      match execute fuel op env store with
      | .error e => .error e
      | .ok (fv, store1) =>
        match execute_list fuel args env store1 with
        | .error e => .error e
        | .ok (argvals, store2) => execute_application fuel fv argvals store2

/-- Evaluate operand executables left to right. -/
def execute_list : Nat → List AStmt → Env → Store → Except EvalError (List Value × Store)
  | 0, _, _, _ => .error .outOfFuel
  | _ + 1, [], _, store => .ok ([], store)
  | fuel + 1, a :: as_, env, store =>
    match execute fuel a env store with
    | .error e => .error e
    | .ok (v, store1) =>
      match execute_list fuel as_ env store1 with
      | .error e => .error e
      | .ok (vs, store2) => .ok (v :: vs, store2)

/-- Run the statements of a sequence left to right; an empty sequence is
`undefined`; a statement whose result is a Return Value marker short-
circuits the rest; otherwise the last statement's value is the value of
the sequence. -/
def execute_sequence : Nat → List AStmt → Env → Store → Except EvalError (Value × Store)
  | 0, _, _, _ => .error .outOfFuel
  | _ + 1, [], _, store => .ok (Value.undef, store)
  | fuel + 1, s :: rest, env, store =>
    match execute fuel s env store with
    | .error e => .error e
    | .ok (v, store1) =>
      match rest with
      | [] => .ok (v, store1)
      | _ :: _ =>
        if is_return_value v then .ok (v, store1)
        else execute_sequence fuel rest env store1

/-- `execute_application(fun, args)`: primitives go to the host; a
compound function gets one new frame binding parameters to the arguments
and locals to the `no_value_yet` sentinel, chained onto the function's
captured defining environment; the body's Return Value marker is unwrapped,
and falling off the end yields `undefined`.  Anything else is an unknown
function type. -/
def execute_application : Nat → Value → List Value → Store → Except EvalError (Value × Store)
  | 0, _, _, _ => .error .outOfFuel
  | fuel + 1, fn, args, store =>
    match fn with
    | .primitive p =>
      match apply_primitive_function p args with
      | .error e => .error e
      | .ok v => .ok (v, store)
    | .compound ps locals body fenv =>
      match insert_all ps locals with
      | .error e => .error e
      | .ok names =>
        match extend_environment names (args.map some ++ locals.map (fun _ => none))
            fenv store with
        | .error e => .error e
        | .ok (env1, store1) =>
          match execute fuel body env1 store1 with
          | .error e => .error e
          | .ok (result, store2) =>
            if is_return_value result then .ok (return_value_content result, store2)
            else .ok (Value.undef, store2)
    | _ => .error .unknownFunctionType

end

/- GLOBAL ENVIRONMENT AND DRIVER -/

/-- `primitive_functions`: name and host operation of every primitive
function bound in the global environment. -/
def primitive_functions : List (String × PrimOp) :=
  [("display", .display), ("error", .errorOp), ("+", .add), ("-", .sub),
   ("*", .mul), ("/", .divOp), ("%", .modOp), ("===", .eqOp), ("!==", .neqOp),
   ("<", .ltOp), ("<=", .leOp), (">", .gtOp), (">=", .geOp), ("!", .notOp)]

/-- `primitive_constants`: `undefined` and `math_PI`.  The host value of
`math_PI` is a floating-point number outside the embedded value domain; an
integer stand-in keeps the binding present (no claim depends on it). -/
def primitive_constants : List (String × Value) :=
  [("undefined", .undef), ("math_PI", .num 3)]

/-- `setup_environment()`: one frame binding all primitive functions and
constants, over the empty environment (and an initially empty store). -/
def setup_environment : Except EvalError (Env × Store) :=
  extend_environment
    (primitive_functions.map (fun f => f.1) ++ primitive_constants.map (fun c => c.1))
    (primitive_functions.map (fun f => some (Value.primitive f.2)) ++
       primitive_constants.map (fun c => some c.2))
    [] []

/-- `the_global_environment = setup_environment()` (the environment part;
`setup_environment` cannot fail on the fixed tables). -/
def the_global_environment : Env :=
  match setup_environment with
  | .ok (env, _) => env
  | .error _ => []

/-- The store holding the global frame's slots. -/
def the_global_store : Store :=
  match setup_environment with
  | .ok (_, store) => store
  | .error _ => []

/-- `evaluate(exp, env)` = `analyze(exp)(env)`. -/
def evaluate (fuel : Nat) (exp : Stmt) (env : Env) (store : Store) :
    Except EvalError (Value × Store) :=
  match analyze exp with
  | .error e => .error e
  | .ok a => execute fuel a env store

/-- `eval_toplevel(stmt)`: wrap the program in a block (creating the
program environment over the global environment), evaluate it, and reject
a Return Value marker that reaches the top level. -/
def eval_toplevel (fuel : Nat) (stmt : Stmt) : Except EvalError Value :=
  match evaluate fuel (Stmt.block stmt) the_global_environment the_global_store with
  | .error e => .error e
  | .ok (value, _) =>
    if is_return_value value then .error .returnOutsideFunction else .ok value

/- STATIC SHAPE OF PARSER OUTPUT

The external parser only produces return statements in statement position
and expressions in expression position (§6 input contract; the grammar in
the source's header comment).  These predicates carve out that shape on
analyzed trees; they are used to prove that a Return Value marker is never
nested. -/

mutual

/-- `s` is an expression of the grammar (literal, name, conditional,
function definition, application). -/
def is_expr : AStmt → Bool
  | .lit _ => true
  | .name _ => true
  | .cond p c a => is_expr p && is_expr c && is_expr a
  | .funcDef _ _ body => is_stmt body
  | .app op args => is_expr op && all_expr args
  | _ => false

/-- Every element is an expression. -/
def all_expr : List AStmt → Bool
  | [] => true
  | a :: as_ => is_expr a && all_expr as_

/-- `s` is a statement of the grammar (an expression statement, a constant
declaration, a return statement, a block, or a sequence of statements). -/
def is_stmt : AStmt → Bool
  | .constDecl _ v => is_expr v
  | .ret e => is_expr e
  | .block _ body => is_stmt body
  | .seq stmts => all_stmt stmts
  | .lit _ => true
  | .name _ => true
  | .cond p c a => is_expr p && is_expr c && is_expr a
  | .funcDef _ _ body => is_stmt body
  | .app op args => is_expr op && all_expr args

/-- Every element is a statement. -/
def all_stmt : List AStmt → Bool
  | [] => true
  | s :: ss => is_stmt s && all_stmt ss

end

/-- A "plain" value: not a Return Value marker, and any compound function
it contains has a grammar-shaped (statement) body. -/
def plain_val : Value → Bool
  | .return_value _ => false
  | .compound _ _ body _ => is_stmt body
  | _ => true

/-- A slot is ok when it is still uninitialised or holds a plain value. -/
def slot_ok : Slot → Bool
  | none => true
  | some v => plain_val v

/-- Every slot of the store is ok. -/
def store_ok (store : Store) : Bool :=
  store.all slot_ok

/-- Specification device for stating the sequence property: run a prefix of
statements left to right, requiring each to succeed with a non-Return
value, and return the remaining fuel and the resulting store.  The fuel
bookkeeping matches `execute_sequence` step for step. -/
def run_statements : Nat → List AStmt → Env → Store → Option (Nat × Store)
  | fuel, [], _, store => some (fuel, store)
  | 0, _ :: _, _, _ => none
  | fuel + 1, s :: rest, env, store =>
    match execute fuel s env store with
    | .error _ => none
    | .ok (v, store1) =>
      if is_return_value v then none else run_statements fuel rest env store1

/- HELPER LEMMAS: insert_all -/

theorem insert_all_ok_append {xs ys zs : List String}
    (h : insert_all xs ys = .ok zs) : zs = xs ++ ys := by
  induction xs generalizing zs with
  | nil => simpa [insert_all, eq_comm] using h
  | cons x xs ih =>
    by_cases hx : x ∈ ys
    · simp [insert_all, hx] at h
    · simp only [insert_all, if_neg hx] at h
      cases hrec : insert_all xs ys with
      | error e => rw [hrec] at h; cases h
      | ok zs' => rw [hrec] at h; cases h; simp [ih hrec]

theorem insert_all_ok_not_mem {xs ys zs : List String}
    (h : insert_all xs ys = .ok zs) : ∀ x ∈ xs, x ∉ ys := by
  induction xs generalizing zs with
  | nil => simp
  | cons x xs ih =>
    by_cases hx : x ∈ ys
    · simp [insert_all, hx] at h
    · simp only [insert_all, if_neg hx] at h
      cases hrec : insert_all xs ys with
      | error e => rw [hrec] at h; cases h
      | ok zs' =>
        intro y hy
        rcases List.mem_cons.mp hy with rfl | hy'
        · exact hx
        · exact ih hrec y hy'

theorem insert_all_of_disjoint {xs ys : List String}
    (h : ∀ x ∈ xs, x ∉ ys) : insert_all xs ys = .ok (xs ++ ys) := by
  induction xs with
  | nil => simp [insert_all]
  | cons x xs ih =>
    have hx : x ∉ ys := h x (List.mem_cons_self x xs)
    simp [insert_all, if_neg hx, ih (fun y hy => h y (List.mem_cons_of_mem x hy))]

theorem insert_all_error_multiple {xs ys : List String} {e : EvalError}
    (h : insert_all xs ys = .error e) : ∃ m, e = .multipleDecls m := by
  induction xs with
  | nil => simp [insert_all] at h
  | cons x xs ih =>
    by_cases hx : x ∈ ys
    · simp only [insert_all, if_pos hx] at h
      exact ⟨x, ((Except.error.injEq _ _).mp h).symm⟩
    · simp only [insert_all, if_neg hx] at h
      cases hrec : insert_all xs ys with
      | error e' => rw [hrec] at h; cases h; exact ih hrec
      | ok zs => rw [hrec] at h; cases h

theorem insert_all_find_collision {xs ys : List String} {x : String}
    (h : xs.find? (fun y => decide (y ∈ ys)) = some x) :
    insert_all xs ys = .error (.multipleDecls x) := by
  induction xs with
  | nil => simp at h
  | cons z xs ih =>
    by_cases hz : z ∈ ys
    · rw [List.find?_cons_of_pos _ (by simpa using hz)] at h
      cases h
      simp [insert_all, hz]
    · rw [List.find?_cons_of_neg _ (by simpa using hz)] at h
      simp [insert_all, hz, ih h]

theorem insert_all_total (xs ys : List String) :
    (∃ zs, insert_all xs ys = .ok zs) ∨ ∃ m, insert_all xs ys = .error (.multipleDecls m) := by
  induction xs with
  | nil => exact .inl ⟨ys, rfl⟩
  | cons x xs ih =>
    by_cases hx : x ∈ ys
    · exact .inr ⟨x, by simp [insert_all, hx]⟩
    · rcases ih with ⟨zs, hok⟩ | ⟨m, herr⟩
      · exact .inl ⟨x :: zs, by simp [insert_all, hx, hok]⟩
      · exact .inr ⟨m, by simp [insert_all, hx, herr]⟩

/- HELPER LEMMAS: local_names -/

theorem local_names_seq_cons {s : Stmt} {rest : List Stmt} {l : List String}
    (h : local_names_seq (s :: rest) = .ok l) :
    ∃ l1 l2, local_names s = .ok l1 ∧ local_names_seq rest = .ok l2 ∧
      l = l1 ++ l2 ∧ ∀ x ∈ l1, x ∉ l2 := by
  rw [local_names_seq] at h
  cases h1 : local_names s with
  | error e => rw [h1] at h; cases h
  | ok l1 =>
    rw [h1] at h
    cases h2 : local_names_seq rest with
    | error e => rw [h2] at h; cases h
    | ok l2 =>
      rw [h2] at h
      exact ⟨l1, l2, rfl, rfl, insert_all_ok_append h, insert_all_ok_not_mem h⟩

theorem local_names_seq_mem {stmts : List Stmt} {l : List String}
    (h : local_names_seq stmts = .ok l) :
    ∀ (k : Nat) (n : String) (v : Stmt), stmts[k]? = some (Stmt.constDecl n v) → n ∈ l := by
  induction stmts generalizing l with
  | nil => intro k n v hk; rw [List.getElem?_nil] at hk; cases hk
  | cons s rest ih =>
    intro k n v hk
    obtain ⟨l1, l2, h1, h2, rfl, _⟩ := local_names_seq_cons h
    cases k with
    | zero =>
      rw [List.getElem?_cons_zero] at hk
      cases hk
      simp only [local_names] at h1
      cases h1
      simp
    | succ k =>
      rw [List.getElem?_cons_succ] at hk
      exact List.mem_append_right l1 (ih h2 k n v hk)

theorem local_names_seq_no_dup {stmts : List Stmt} {l : List String}
    (h : local_names_seq stmts = .ok l) :
    ∀ (i j : Nat) (n : String) (v1 v2 : Stmt), i < j →
      stmts[i]? = some (Stmt.constDecl n v1) →
      stmts[j]? = some (Stmt.constDecl n v2) → False := by
  induction stmts generalizing l with
  | nil => intro i j n v1 v2 _ hi _; rw [List.getElem?_nil] at hi; cases hi
  | cons s rest ih =>
    intro i j n v1 v2 hij hi hj
    obtain ⟨l1, l2, h1, h2, rfl, hdisj⟩ := local_names_seq_cons h
    cases i with
    | zero =>
      cases j with
      | zero => omega
      | succ j =>
        rw [List.getElem?_cons_zero] at hi
        cases hi
        simp only [local_names] at h1
        cases h1
        rw [List.getElem?_cons_succ] at hj
        exact hdisj n (by simp) (local_names_seq_mem h2 j n v2 hj)
    | succ i =>
      cases j with
      | zero => omega
      | succ j =>
        rw [List.getElem?_cons_succ] at hi hj
        exact ih h2 i j n v1 v2 (by omega) hi hj

mutual

/-- `local_names` either succeeds or fails with a `multiple declarations`
error — no other outcome exists. -/
theorem local_names_total (s : Stmt) :
    (∃ l, local_names s = .ok l) ∨ ∃ m, local_names s = .error (.multipleDecls m) :=
  match s with
  | .seq stmts => by
    rcases local_names_seq_total stmts with ⟨l, hl⟩ | ⟨m, hm⟩
    · exact .inl ⟨l, by rw [local_names]; exact hl⟩
    · exact .inr ⟨m, by rw [local_names]; exact hm⟩
  | .constDecl n v => .inl ⟨[n], rfl⟩
  | .lit l => .inl ⟨[], rfl⟩
  | .name n => .inl ⟨[], rfl⟩
  | .cond p c a => .inl ⟨[], rfl⟩
  | .funcDef ps b => .inl ⟨[], rfl⟩
  | .block b => .inl ⟨[], rfl⟩
  | .ret e => .inl ⟨[], rfl⟩
  | .app op args => .inl ⟨[], rfl⟩

theorem local_names_seq_total (ss : List Stmt) :
    (∃ l, local_names_seq ss = .ok l) ∨
      ∃ m, local_names_seq ss = .error (.multipleDecls m) :=
  match ss with
  | [] => .inl ⟨[], rfl⟩
  | s :: rest => by
    rcases local_names_total s with ⟨l1, h1⟩ | ⟨m, hm⟩
    · rcases local_names_seq_total rest with ⟨l2, h2⟩ | ⟨m, hm⟩
      · rcases insert_all_total l1 l2 with ⟨zs, hz⟩ | ⟨m, hm⟩
        · exact .inl ⟨zs, by rw [local_names_seq, h1, h2]; exact hz⟩
        · exact .inr ⟨m, by rw [local_names_seq, h1, h2]; exact hm⟩
      · exact .inr ⟨m, by rw [local_names_seq, h1, hm]⟩
    · exact .inr ⟨m, by rw [local_names_seq, hm]⟩

end

/- HELPER LEMMAS: frame scanning and the store -/

theorem lookup_scan_eq_none {name : String} {names : List String} {addrs : List Nat}
    (h : name ∉ names) : lookup_scan name names addrs = none := by
  induction names generalizing addrs with
  | nil => cases addrs <;> rfl
  | cons n ns ih =>
    cases addrs with
    | nil => rfl
    | cons a as_ =>
      have hne : name ≠ n := fun heq => h (heq ▸ List.mem_cons_self n ns)
      rw [lookup_scan, if_neg hne]
      exact ih (fun hmem => h (List.mem_cons_of_mem n hmem))

theorem lookup_scan_eq_some {name : String} {names : List String} {addrs : List Nat}
    {a : Nat} (hmem : name ∈ names)
    (hidx : addrs[names.indexOf name]? = some a) :
    lookup_scan name names addrs = some a := by
  induction names generalizing addrs with
  | nil => simp at hmem
  | cons n ns ih =>
    by_cases heq : name = n
    · subst heq
      rw [List.indexOf_cons_self] at hidx
      cases addrs with
      | nil => simp at hidx
      | cons a0 as_ =>
        simp only [List.getElem?_cons_zero, Option.some.injEq] at hidx
        subst hidx
        simp [lookup_scan]
    · have hne : n ≠ name := fun h => heq h.symm
      rw [List.indexOf_cons_ne _ hne] at hidx
      cases addrs with
      | nil => simp at hidx
      | cons a0 as_ =>
        rw [Nat.succ_eq_add_one, List.getElem?_cons_succ] at hidx
        rw [lookup_scan, if_neg heq]
        exact ih ((List.mem_cons.mp hmem).resolve_left heq) hidx

theorem store_ok_of_getElem {store : Store} {a : Nat} {v : Value}
    (hstore : store_ok store = true) (h : store[a]? = some (some v)) :
    plain_val v = true := by
  have hmem : (some v : Slot) ∈ store := List.getElem?_mem h
  exact List.all_eq_true.mp hstore _ hmem

theorem store_ok_set {store : Store} {a : Nat} {val : Value}
    (hstore : store_ok store = true) (hval : plain_val val = true) :
    store_ok (store.set a (some val)) = true := by
  apply List.all_eq_true.mpr
  intro x hx
  rcases List.mem_or_eq_of_mem_set hx with hmem | rfl
  · exact List.all_eq_true.mp hstore x hmem
  · exact hval

theorem store_ok_append {store : Store} {vals : List Slot}
    (hstore : store_ok store = true) (hvals : vals.all slot_ok = true) :
    store_ok (store ++ vals) = true := by
  rw [store_ok] at hstore ⊢
  rw [List.all_append, hstore, hvals]
  rfl

theorem lookup_ok_plain {name : String} {env : Env} {store : Store} {v : Value}
    (hstore : store_ok store = true)
    (h : lookup_name_value name env store = .ok v) : plain_val v = true := by
  induction env with
  | nil => rw [lookup_name_value] at h; cases h
  | cons f rest ih =>
    cases hscan : lookup_scan name f.names f.addrs with
    | none =>
      simp only [lookup_name_value, hscan] at h
      exact ih h
    | some a =>
      simp only [lookup_name_value, hscan] at h
      cases hget : store[a]? with
      | none => simp only [hget] at h; cases h
      | some slot =>
        cases slot with
        | none => simp only [hget] at h; cases h
        | some v0 =>
          simp only [hget, Except.ok.injEq] at h
          subst h
          exact store_ok_of_getElem hstore hget

theorem set_scan_store_ok {name : String} {val : Value} {names : List String}
    {addrs : List Nat} {store store' : Store}
    (hstore : store_ok store = true) (hval : plain_val val = true)
    (h : set_scan name val names addrs store = .ok store') :
    store_ok store' = true := by
  induction names generalizing addrs with
  | nil => rw [set_scan] at h; cases h
  | cons n ns ih =>
    cases addrs with
    | nil => rw [set_scan] at h; cases h
    | cons a as_ =>
      rw [set_scan] at h
      by_cases heq : name = n
      · rw [if_pos heq] at h
        cases h
        exact store_ok_set hstore hval
      · rw [if_neg heq] at h
        exact ih h

theorem set_name_value_store_ok {name : String} {val : Value} {env : Env}
    {store store' : Store}
    (hstore : store_ok store = true) (hval : plain_val val = true)
    (h : set_name_value name val env store = .ok store') :
    store_ok store' = true := by
  cases env with
  | nil => rw [set_name_value] at h; cases h
  | cons f rest => exact set_scan_store_ok hstore hval h

theorem extend_environment_ok {names : List String} {vals : List Slot}
    (base_env : Env) (store : Store) (h : names.length = vals.length) :
    extend_environment names vals base_env store =
      .ok (enclose_by (Frame.mk names (make_addrs store vals.length)) base_env,
           store ++ vals) := by
  rw [extend_environment, if_pos h]

/- HELPER LEMMAS: primitives -/

theorem minus_plain {x y v : Value} (h : minus x y = .ok v) : plain_val v = true := by
  unfold minus at h
  split at h <;> (cases h <;> rfl)

theorem apply_primitive_plain {p : PrimOp} {args : List Value} {v : Value}
    (hargs : args.all plain_val = true)
    (h : apply_primitive_function p args = .ok v) : plain_val v = true := by
  unfold apply_primitive_function at h
  split at h <;>
    first
    | exact minus_plain h
    | (cases h <;> rfl)
    | (cases h
       rw [List.all_cons, Bool.and_eq_true] at hargs
       exact hargs.1)

theorem is_return_value_of_plain {v : Value} (h : plain_val v = true) :
    is_return_value v = false := by
  cases v <;> simp_all [plain_val, is_return_value]

theorem extend_environment_ok_inv {names : List String} {vals : List Slot}
    {base_env : Env} {store : Store} {env1 : Env} {store1 : Store}
    (h : extend_environment names vals base_env store = .ok (env1, store1)) :
    env1 = enclose_by (Frame.mk names (make_addrs store vals.length)) base_env ∧
      store1 = store ++ vals := by
  unfold extend_environment at h
  split at h
  · cases h; exact ⟨rfl, rfl⟩
  · split at h <;> cases h

theorem some_slots_ok {args : List Value} (h : args.all plain_val = true) :
    (args.map some).all slot_ok = true := by
  induction args with
  | nil => rfl
  | cons a as_ ih =>
    rw [List.all_cons, Bool.and_eq_true] at h
    simp only [List.map_cons, List.all_cons, ih h.2, Bool.and_true]
    exact h.1

theorem none_slots_ok (locals : List String) :
    (locals.map (fun _ => (none : Slot))).all slot_ok = true := by
  induction locals with
  | nil => rfl
  | cons x xs ih =>
    rw [List.map_cons, List.all_cons, ih]
    rfl

/- PRESERVATION

On grammar-shaped input and a store whose slots hold only plain values,
expressions produce plain values, statements produce a plain value or one
Return Value marker wrapping a plain value, and the store stays ok.  This
is the invariant behind "a Return Value marker is never nested". -/

theorem preservation : ∀ fuel : Nat,
    (∀ s env store v store', is_expr s = true → store_ok store = true →
       execute fuel s env store = .ok (v, store') →
       plain_val v = true ∧ store_ok store' = true)
  ∧ (∀ s env store v store', is_stmt s = true → store_ok store = true →
       execute fuel s env store = .ok (v, store') →
       store_ok store' = true ∧
         (plain_val v = true ∨ ∃ c, v = Value.return_value c ∧ plain_val c = true))
  ∧ (∀ l env store vs store', all_expr l = true → store_ok store = true →
       execute_list fuel l env store = .ok (vs, store') →
       vs.all plain_val = true ∧ store_ok store' = true)
  ∧ (∀ l env store v store', all_stmt l = true → store_ok store = true →
       execute_sequence fuel l env store = .ok (v, store') →
       store_ok store' = true ∧
         (plain_val v = true ∨ ∃ c, v = Value.return_value c ∧ plain_val c = true))
  ∧ (∀ fn args store v store', plain_val fn = true → args.all plain_val = true →
       store_ok store = true →
       execute_application fuel fn args store = .ok (v, store') →
       plain_val v = true ∧ store_ok store' = true) := by
  intro fuel
  induction fuel with
  | zero =>
    refine ⟨?_, ?_, ?_, ?_, ?_⟩
    · intro s env store v store' _ _ hexec
      simp only [execute] at hexec
      cases hexec
    · intro s env store v store' _ _ hexec
      simp only [execute] at hexec
      cases hexec
    · intro l env store vs store' _ _ hexec
      simp only [execute_list] at hexec
      cases hexec
    · intro l env store v store' _ _ hexec
      simp only [execute_sequence] at hexec
      cases hexec
    · intro fn args store v store' _ _ _ hexec
      simp only [execute_application] at hexec
      cases hexec
  | succ fuel ih =>
    obtain ⟨ihE, ihS, ihL, ihQ, ihA⟩ := ih
    have hE : ∀ s env store v store', is_expr s = true → store_ok store = true →
        execute (fuel + 1) s env store = .ok (v, store') →
        plain_val v = true ∧ store_ok store' = true := by
      intro s env store v store' hwf hstore hexec
      cases s with
      | lit l =>
        simp only [execute] at hexec
        cases hexec
        exact ⟨by cases l <;> rfl, hstore⟩
      | name n =>
        cases hlook : lookup_name_value n env store with
        | error e => simp only [execute, hlook] at hexec; cases hexec
        | ok v0 =>
          simp only [execute, hlook, Except.ok.injEq, Prod.mk.injEq] at hexec
          obtain ⟨rfl, rfl⟩ := hexec
          exact ⟨lookup_ok_plain hstore hlook, hstore⟩
      | cond p c a =>
        simp only [is_expr, Bool.and_eq_true] at hwf
        obtain ⟨⟨hp, hc⟩, ha⟩ := hwf
        cases hpe : execute fuel p env store with
        | error e => simp only [execute, hpe] at hexec; cases hexec
        | ok pr =>
          obtain ⟨pv, store1⟩ := pr
          simp only [execute, hpe] at hexec
          obtain ⟨_, hstore1⟩ := ihE p env store pv store1 hp hstore hpe
          by_cases htrue : is_true pv = true
          · rw [if_pos htrue] at hexec
            exact ihE c env store1 v store' hc hstore1 hexec
          · rw [if_neg htrue] at hexec
            exact ihE a env store1 v store' ha hstore1 hexec
      | funcDef ps locals body =>
        simp only [is_expr] at hwf
        simp only [execute] at hexec
        cases hexec
        exact ⟨by simpa [make_compound_function, plain_val] using hwf, hstore⟩
      | app op args =>
        simp only [is_expr, Bool.and_eq_true] at hwf
        obtain ⟨hop, hargs⟩ := hwf
        cases hfe : execute fuel op env store with
        | error e => simp only [execute, hfe] at hexec; cases hexec
        | ok fr =>
          obtain ⟨fv, store1⟩ := fr
          simp only [execute, hfe] at hexec
          obtain ⟨hfp, hstore1⟩ := ihE op env store fv store1 hop hstore hfe
          cases hle : execute_list fuel args env store1 with
          | error e => simp only [hle] at hexec; cases hexec
          | ok lr =>
            obtain ⟨argvals, store2⟩ := lr
            simp only [hle] at hexec
            obtain ⟨hvp, hstore2⟩ := ihL args env store1 argvals store2 hargs hstore1 hle
            exact ihA fv argvals store2 v store' hfp hvp hstore2 hexec
      | constDecl n vexpr => simp only [is_expr] at hwf; cases hwf
      | seq stmts => simp only [is_expr] at hwf; cases hwf
      | block locals body => simp only [is_expr] at hwf; cases hwf
      | ret e => simp only [is_expr] at hwf; cases hwf
    have hS : ∀ s env store v store', is_stmt s = true → store_ok store = true →
        execute (fuel + 1) s env store = .ok (v, store') →
        store_ok store' = true ∧
          (plain_val v = true ∨ ∃ c, v = Value.return_value c ∧ plain_val c = true) := by
      intro s env store v store' hwf hstore hexec
      cases s with
      | constDecl n vexpr =>
        simp only [is_stmt] at hwf
        cases hve : execute fuel vexpr env store with
        | error e => simp only [execute, hve] at hexec; cases hexec
        | ok vr =>
          obtain ⟨val, store1⟩ := vr
          simp only [execute, hve] at hexec
          obtain ⟨hvp, hstore1⟩ := ihE vexpr env store val store1 hwf hstore hve
          cases hset : set_name_value n val env store1 with
          | error e => simp only [hset] at hexec; cases hexec
          | ok store2 =>
            simp only [hset, Except.ok.injEq, Prod.mk.injEq] at hexec
            obtain ⟨rfl, rfl⟩ := hexec
            exact ⟨set_name_value_store_ok hstore1 hvp hset, .inl rfl⟩
      | ret e =>
        simp only [is_stmt] at hwf
        cases hee : execute fuel e env store with
        | error er => simp only [execute, hee] at hexec; cases hexec
        | ok er =>
          obtain ⟨ev, store1⟩ := er
          simp only [execute, hee, Except.ok.injEq, Prod.mk.injEq] at hexec
          obtain ⟨rfl, rfl⟩ := hexec
          obtain ⟨hep, hstore1⟩ := ihE e env store ev store1 hwf hstore hee
          exact ⟨hstore1, .inr ⟨ev, rfl, hep⟩⟩
      | block locals body =>
        simp only [is_stmt] at hwf
        cases hext : extend_environment locals (locals.map (fun _ => none)) env store with
        | error e => simp only [execute, hext] at hexec; cases hexec
        | ok pr =>
          obtain ⟨env1, store1⟩ := pr
          simp only [execute, hext] at hexec
          obtain ⟨_, hst1⟩ := extend_environment_ok_inv hext
          have hstore1 : store_ok store1 = true := by
            rw [hst1]
            exact store_ok_append hstore (none_slots_ok locals)
          exact ihS body env1 store1 v store' hwf hstore1 hexec
      | seq stmts =>
        simp only [is_stmt] at hwf
        simp only [execute] at hexec
        exact ihQ stmts env store v store' hwf hstore hexec
      | lit l =>
        obtain ⟨hp, hs'⟩ := hE (.lit l) env store v store' rfl hstore hexec
        exact ⟨hs', .inl hp⟩
      | name n =>
        obtain ⟨hp, hs'⟩ := hE (.name n) env store v store' rfl hstore hexec
        exact ⟨hs', .inl hp⟩
      | cond p c a =>
        obtain ⟨hp, hs'⟩ := hE (.cond p c a) env store v store'
          (by simpa [is_expr, is_stmt] using hwf) hstore hexec
        exact ⟨hs', .inl hp⟩
      | funcDef ps locals body =>
        obtain ⟨hp, hs'⟩ := hE (.funcDef ps locals body) env store v store'
          (by simpa [is_expr, is_stmt] using hwf) hstore hexec
        exact ⟨hs', .inl hp⟩
      | app op args =>
        obtain ⟨hp, hs'⟩ := hE (.app op args) env store v store'
          (by simpa [is_expr, is_stmt] using hwf) hstore hexec
        exact ⟨hs', .inl hp⟩
    have hL : ∀ l env store vs store', all_expr l = true → store_ok store = true →
        execute_list (fuel + 1) l env store = .ok (vs, store') →
        vs.all plain_val = true ∧ store_ok store' = true := by
      intro l env store vs store' hwf hstore hexec
      cases l with
      | nil =>
        simp only [execute_list, Except.ok.injEq, Prod.mk.injEq] at hexec
        obtain ⟨rfl, rfl⟩ := hexec
        exact ⟨rfl, hstore⟩
      | cons a as_ =>
        simp only [all_expr, Bool.and_eq_true] at hwf
        obtain ⟨ha, has⟩ := hwf
        cases hae : execute fuel a env store with
        | error e => simp only [execute_list, hae] at hexec; cases hexec
        | ok ar =>
          obtain ⟨av, store1⟩ := ar
          simp only [execute_list, hae] at hexec
          obtain ⟨hap, hstore1⟩ := ihE a env store av store1 ha hstore hae
          cases hle : execute_list fuel as_ env store1 with
          | error e => simp only [hle] at hexec; cases hexec
          | ok lr =>
            obtain ⟨avs, store2⟩ := lr
            simp only [hle, Except.ok.injEq, Prod.mk.injEq] at hexec
            obtain ⟨rfl, rfl⟩ := hexec
            obtain ⟨hvsp, hstore2⟩ := ihL as_ env store1 avs store2 has hstore1 hle
            exact ⟨by simp [List.all_cons, hap, hvsp], hstore2⟩
    have hQ : ∀ l env store v store', all_stmt l = true → store_ok store = true →
        execute_sequence (fuel + 1) l env store = .ok (v, store') →
        store_ok store' = true ∧
          (plain_val v = true ∨ ∃ c, v = Value.return_value c ∧ plain_val c = true) := by
      intro l env store v store' hwf hstore hexec
      cases l with
      | nil =>
        simp only [execute_sequence, Except.ok.injEq, Prod.mk.injEq] at hexec
        obtain ⟨rfl, rfl⟩ := hexec
        exact ⟨hstore, .inl rfl⟩
      | cons s rest =>
        simp only [all_stmt, Bool.and_eq_true] at hwf
        obtain ⟨hs1, hrest⟩ := hwf
        cases hse : execute fuel s env store with
        | error e => simp only [execute_sequence, hse] at hexec; cases hexec
        | ok sr =>
          obtain ⟨sv, store1⟩ := sr
          simp only [execute_sequence, hse] at hexec
          obtain ⟨hstore1, hsv⟩ := ihS s env store sv store1 hs1 hstore hse
          cases rest with
          | nil =>
            simp only [Except.ok.injEq, Prod.mk.injEq] at hexec
            obtain ⟨rfl, rfl⟩ := hexec
            exact ⟨hstore1, hsv⟩
          | cons r rest' =>
            by_cases hret : is_return_value sv = true
            · rw [if_pos hret] at hexec
              simp only [Except.ok.injEq, Prod.mk.injEq] at hexec
              obtain ⟨rfl, rfl⟩ := hexec
              exact ⟨hstore1, hsv⟩
            · rw [if_neg hret] at hexec
              exact ihQ (r :: rest') env store1 v store' hrest hstore1 hexec
    have hA : ∀ fn args store v store', plain_val fn = true →
        args.all plain_val = true → store_ok store = true →
        execute_application (fuel + 1) fn args store = .ok (v, store') →
        plain_val v = true ∧ store_ok store' = true := by
      intro fn args store v store' hfp hargs hstore hexec
      cases fn with
      | primitive p =>
        cases hap : apply_primitive_function p args with
        | error e => simp only [execute_application, hap] at hexec; cases hexec
        | ok pv =>
          simp only [execute_application, hap, Except.ok.injEq, Prod.mk.injEq] at hexec
          obtain ⟨rfl, rfl⟩ := hexec
          exact ⟨apply_primitive_plain hargs hap, hstore⟩
      | compound ps locals body fenv =>
        simp only [plain_val] at hfp
        cases hins : insert_all ps locals with
        | error e => simp only [execute_application, hins] at hexec; cases hexec
        | ok names =>
          simp only [execute_application, hins] at hexec
          cases hext : extend_environment names
              (args.map some ++ locals.map (fun _ => none)) fenv store with
          | error e => simp only [hext] at hexec; cases hexec
          | ok pr =>
            obtain ⟨env1, store1⟩ := pr
            simp only [hext] at hexec
            obtain ⟨_, hst1⟩ := extend_environment_ok_inv hext
            have hstore1 : store_ok store1 = true := by
              rw [hst1]
              exact store_ok_append hstore (by
                rw [List.all_append, some_slots_ok hargs, none_slots_ok locals]
                rfl)
            cases hbe : execute fuel body env1 store1 with
            | error e => simp only [hbe] at hexec; cases hexec
            | ok br =>
              obtain ⟨result, store2⟩ := br
              simp only [hbe] at hexec
              obtain ⟨hstore2, hres⟩ := ihS body env1 store1 result store2 hfp hstore1 hbe
              by_cases hret : is_return_value result = true
              · rw [if_pos hret] at hexec
                simp only [Except.ok.injEq, Prod.mk.injEq] at hexec
                obtain ⟨rfl, rfl⟩ := hexec
                rcases hres with hplain | ⟨c, rfl, hcp⟩
                · rw [is_return_value_of_plain hplain] at hret; cases hret
                · exact ⟨hcp, hstore2⟩
              · rw [if_neg hret] at hexec
                simp only [Except.ok.injEq, Prod.mk.injEq] at hexec
                obtain ⟨rfl, rfl⟩ := hexec
                exact ⟨rfl, hstore2⟩
      | num n => simp only [execute_application] at hexec; cases hexec
      | str s => simp only [execute_application] at hexec; cases hexec
      | bool b => simp only [execute_application] at hexec; cases hexec
      | undef => simp only [execute_application] at hexec; cases hexec
      | nullv => simp only [execute_application] at hexec; cases hexec
      | return_value c => simp only [execute_application] at hexec; cases hexec
    exact ⟨hE, hS, hL, hQ, hA⟩

/- End-to-end scenarios from the evaluator's documentation, checked by
kernel evaluation of the embedding. -/
example : local_names (.seq [.constDecl "a" (.lit (.num 1)), .constDecl "b" (.lit (.num 2))])
    = .ok ["a", "b"] := rfl
example : local_names (.seq [.constDecl "a" (.lit (.num 1)), .constDecl "a" (.lit (.num 2))])
    = .error (.multipleDecls "a") := rfl
example : analyze (.block (.seq [.constDecl "a" (.lit (.num 1)), .constDecl "a" (.lit (.num 2))]))
    = .error (.multipleDecls "a") := rfl
example : eval_toplevel 10 (.lit (.num 42)) = .ok (.num 42) := rfl
example : eval_toplevel 10 (.ret (.lit (.num 1))) = .error .returnOutsideFunction := rfl
example : eval_toplevel 10 (.cond (.lit (.num 0)) (.lit (.num 1)) (.lit (.num 2)))
    = .ok (.num 2) := rfl
example : eval_toplevel 10
    (.seq [.constDecl "x" (.app (.name "+") [.lit (.num 1), .lit (.num 2)]), .name "x"])
    = .ok (.num 3) := rfl
example : eval_toplevel 10 (.seq [.name "x", .constDecl "x" (.lit (.num 1))])
    = .error (.usedBeforeDecl "x") := rfl
example : eval_toplevel 10 (.name "zzz") = .error (.unboundName "zzz") := rfl
-- closure: make_adder resolves x in its defining environment
example : eval_toplevel 20
    (.seq [ .constDecl "make_adder" (.funcDef ["x"] (.ret (.funcDef ["y"]
              (.ret (.app (.name "+") [.name "x", .name "y"]))))),
            .constDecl "add3" (.app (.name "make_adder") [.lit (.num 3)]),
            .app (.name "add3") [.lit (.num 4)]])
    = .ok (.num 7) := rfl
-- recursion through the shared (mutated) frame slot
example : eval_toplevel 100
    (.seq [ .constDecl "fact" (.funcDef ["n"] (.ret
              (.cond (.app (.name "===") [.name "n", .lit (.num 0)])
                     (.lit (.num 1))
                     (.app (.name "*") [.name "n",
                        .app (.name "fact") [.app (.name "-") [.name "n", .lit (.num 1)]]])))),
            .app (.name "fact") [.lit (.num 4)]])
    = .ok (.num 24) := rfl
-- arity errors
example : eval_toplevel 20
    (.seq [ .constDecl "h" (.funcDef ["a"] (.ret (.name "a"))),
            .app (.name "h") [.lit (.num 1), .lit (.num 2)]])
    = .error .tooManyArgs := rfl
example : eval_toplevel 20
    (.seq [ .constDecl "h" (.funcDef ["a"] (.ret (.name "a"))),
            .app (.name "h") []])
    = .error .tooFewArgs := rfl

/- SEQUENCE-CHAIN UNFOLDING LEMMAS -/

theorem execute_sequence_last (k : Nat) (p : AStmt) (env : Env) (store : Store) :
    execute_sequence (k + 1) [p] env store = execute k p env store := by
  cases hpe : execute k p env store with
  | error e => simp only [execute_sequence, hpe]
  | ok pr =>
    obtain ⟨v, s1⟩ := pr
    simp only [execute_sequence, hpe]

theorem execute_sequence_ret {k : Nat} {p : AStmt} {rest : List AStmt} {env : Env}
    {store store0 : Store} {pv : Value} (hne : rest ≠ [])
    (hpe : execute k p env store = .ok (pv, store0))
    (hret : is_return_value pv = true) :
    execute_sequence (k + 1) (p :: rest) env store = .ok (pv, store0) := by
  cases rest with
  | nil => exact absurd rfl hne
  | cons r rest' =>
    simp only [execute_sequence, hpe]
    rw [if_pos hret]

theorem execute_sequence_step {k : Nat} {p : AStmt} {rest : List AStmt} {env : Env}
    {store store0 : Store} {pv : Value} (hne : rest ≠ [])
    (hpe : execute k p env store = .ok (pv, store0))
    (hret : is_return_value pv = false) :
    execute_sequence (k + 1) (p :: rest) env store
      = execute_sequence k rest env store0 := by
  cases rest with
  | nil => exact absurd rfl hne
  | cons r rest' =>
    simp only [execute_sequence, hpe]
    rw [if_neg (by simp [hret])]

theorem is_true_iff {v : Value} : is_true v = true ↔ v = Value.bool true := by
  cases v with
  | bool b => cases b <;> simp [is_true]
  | num n => simp [is_true]
  | str s => simp [is_true]
  | undef => simp [is_true]
  | nullv => simp [is_true]
  | primitive p => simp [is_true]
  | compound ps ls body env => simp [is_true]
  | return_value c => simp [is_true]

/- THE CLAIMS -/

/-- Claim C1: applying a compound function chains the new frame — parameter
names bound to the argument values, local names bound to the uninitialised
sentinel — onto the environment captured in the function value at its
definition (`function_environment(fun)`), never onto the caller's
environment: `execute_application` does not even receive the calling
environment, and the body below runs in `frame :: fenv`.  Hence a function
invoked in a different lexical context resolves free names where it was
defined. -/
theorem application_extends_defining_environment
    (fuel : Nat) (ps ls : List String) (body : AStmt) (fenv : Env)
    (args : List Value) (store : Store) (names : List String)
    (hnames : insert_all ps ls = Except.ok names)
    (hlen : names.length = args.length + ls.length) :
    execute_application (fuel + 1) (Value.compound ps ls body fenv) args store =
      match execute fuel body
          (enclose_by (Frame.mk names (make_addrs store (args.length + ls.length))) fenv)
          (store ++ (args.map some ++ ls.map (fun _ => none))) with
      | .error e => .error e
      | .ok (result, store2) =>
        if is_return_value result then .ok (return_value_content result, store2)
        else .ok (Value.undef, store2) := by
  simp only [execute_application, hnames,
    extend_environment_ok fenv store
      (by simp [hlen] :
        names.length = (args.map some ++ ls.map (fun _ => (none : Slot))).length),
    List.length_append, List.length_map]

theorem application_extends_defining_environment_witness :
    execute_application 2 (Value.compound ["x"] [] (AStmt.name "x")
        [Frame.mk ["y"] [0]]) [Value.num 5] [some (Value.num 99)] =
      .ok (Value.undef, [some (Value.num 99), some (Value.num 5)]) := by
  rw [application_extends_defining_environment 1 ["x"] [] (AStmt.name "x")
    [Frame.mk ["y"] [0]] [Value.num 5] [some (Value.num 99)] ["x"] rfl rfl]
  rfl

/-- Claim C2: a conditional executes the predicate's executable and takes
the consequent branch exactly when the predicate's value is the boolean
`true`; every other value — including non-booleans such as `0` — takes the
alternative branch, and no error is raised for a non-boolean predicate. -/
theorem conditional_requires_exactly_true
    (fuel : Nat) (p c a : AStmt) (env : Env) (store store1 : Store) (v : Value)
    (hp : execute fuel p env store = .ok (v, store1)) :
    (v = Value.bool true →
      execute (fuel + 1) (AStmt.cond p c a) env store = execute fuel c env store1)
    ∧ (v ≠ Value.bool true →
      execute (fuel + 1) (AStmt.cond p c a) env store = execute fuel a env store1) := by
  constructor
  · intro hv
    have htrue : is_true v = true := is_true_iff.mpr hv
    simp only [execute, hp]
    rw [if_pos htrue]
  · intro hv
    have hfalse : ¬ is_true v = true := fun h => hv (is_true_iff.mp h)
    simp only [execute, hp]
    rw [if_neg hfalse]

theorem conditional_requires_exactly_true_witness :
    execute 2 (AStmt.cond (AStmt.lit (Lit.num 0)) (AStmt.lit (Lit.num 1))
        (AStmt.lit (Lit.num 2))) [] [] = Except.ok (Value.num 2, []) := by
  rw [(conditional_requires_exactly_true 1 (AStmt.lit (Lit.num 0))
    (AStmt.lit (Lit.num 1)) (AStmt.lit (Lit.num 2)) [] [] [] (Value.num 0) rfl).2
    (fun h => nomatch h)]
  rfl

/-- Claim C3: with pairwise-distinct parameter and local names, a compound
call builds its frame exactly when the number of evaluated arguments
equals the number of parameters; more arguments than parameters raises
`Too many arguments supplied`, fewer raises `Too few arguments
supplied`. -/
theorem application_arity_exact
    (fuel : Nat) (ps ls : List String) (body : AStmt) (fenv : Env)
    (args : List Value) (store : Store)
    (hdisj : ∀ x ∈ ps, x ∉ ls) :
    (ps.length < args.length →
      execute_application (fuel + 1) (Value.compound ps ls body fenv) args store
        = .error .tooManyArgs)
    ∧ (args.length < ps.length →
      execute_application (fuel + 1) (Value.compound ps ls body fenv) args store
        = .error .tooFewArgs)
    ∧ (args.length = ps.length →
      execute_application (fuel + 1) (Value.compound ps ls body fenv) args store =
        match execute fuel body
            (enclose_by (Frame.mk (ps ++ ls)
              (make_addrs store (args.length + ls.length))) fenv)
            (store ++ (args.map some ++ ls.map (fun _ => none))) with
        | .error e => .error e
        | .ok (result, store2) =>
          if is_return_value result then .ok (return_value_content result, store2)
          else .ok (Value.undef, store2)) := by
  have hins := insert_all_of_disjoint hdisj
  refine ⟨?_, ?_, ?_⟩
  · intro hlt
    simp only [execute_application, hins, extend_environment,
      List.length_append, List.length_map]
    rw [if_neg (by omega), if_pos (by omega)]
  · intro hlt
    simp only [execute_application, hins, extend_environment,
      List.length_append, List.length_map]
    rw [if_neg (by omega), if_neg (by omega)]
  · intro heq
    simp only [execute_application, hins,
      extend_environment_ok fenv store
        (by simp [heq, Nat.add_comm] :
          (ps ++ ls).length
            = (args.map some ++ ls.map (fun _ => (none : Slot))).length),
      List.length_append, List.length_map]

theorem application_arity_exact_witness :
    execute_application 1 (Value.compound ["a"] [] (AStmt.name "a") [])
        [Value.num 1, Value.num 2] [] = .error .tooManyArgs :=
  (application_arity_exact 0 ["a"] [] (AStmt.name "a") []
    [Value.num 1, Value.num 2] [] (by decide)).1 (by decide)

/-- Claim C4: `lookup_name_value` scans the innermost frame first; in the
empty environment it raises `Unbound name:`; if the name is absent from the
innermost frame it recurses into the enclosing environment; if the first
occurrence of the name in the innermost frame still holds the
`no_value_yet` sentinel it raises `Name used before declaration:`, and
otherwise the slot's value is returned. -/
theorem lookup_scans_innermost_then_enclosing
    (name : String) (f : Frame) (rest : Env) (store : Store) :
    (lookup_name_value name [] store = .error (.unboundName name))
    ∧ (name ∉ f.names →
        lookup_name_value name (f :: rest) store = lookup_name_value name rest store)
    ∧ (∀ a : Nat, name ∈ f.names → f.addrs[f.names.indexOf name]? = some a →
        (store[a]? = some none →
          lookup_name_value name (f :: rest) store = .error (.usedBeforeDecl name))
        ∧ (∀ v : Value, store[a]? = some (some v) →
          lookup_name_value name (f :: rest) store = .ok v)) := by
  refine ⟨rfl, ?_, ?_⟩
  · intro hnot
    simp only [lookup_name_value, lookup_scan_eq_none hnot]
  · intro a hmem hidx
    have hscan := lookup_scan_eq_some hmem hidx
    constructor
    · intro hslot
      simp only [lookup_name_value, hscan, hslot]
    · intro v hslot
      simp only [lookup_name_value, hscan, hslot]

theorem lookup_scans_innermost_then_enclosing_witness :
    lookup_name_value "x" [Frame.mk ["x"] [0]] [some (Value.num 7)]
      = .ok (Value.num 7) :=
  ((lookup_scans_innermost_then_enclosing "x" (Frame.mk ["x"] [0]) []
    [some (Value.num 7)]).2.2 0 (by decide) rfl).2 (Value.num 7) rfl

/-- Claim C5: the statements of a sequence run left to right; after a
prefix of statements whose results are not Return Value markers, a
statement that yields a Return Value marker makes the whole sequence yield
that marker immediately, skipping the remaining statements; and with such
a prefix, the value of the final statement is the value of the whole
sequence. -/
theorem sequence_return_short_circuit
    (pre : List AStmt) (fuel fuel1 : Nat) (s : AStmt) (env : Env)
    (store store1 : Store)
    (hpre : run_statements fuel pre env store = some (fuel1 + 1, store1)) :
    (∀ (post : List AStmt) (c : Value) (store2 : Store),
      execute fuel1 s env store1 = .ok (Value.return_value c, store2) →
      execute_sequence fuel (pre ++ s :: post) env store
        = .ok (Value.return_value c, store2))
    ∧ (∀ (v : Value) (store2 : Store),
      execute fuel1 s env store1 = .ok (v, store2) →
      execute_sequence fuel (pre ++ [s]) env store = .ok (v, store2)) := by
  revert hpre
  induction pre generalizing fuel store with
  | nil =>
    intro hpre
    simp only [run_statements, Option.some.injEq, Prod.mk.injEq] at hpre
    obtain ⟨rfl, rfl⟩ := hpre
    constructor
    · intro post c store2 hs
      cases post with
      | nil => rw [List.nil_append, execute_sequence_last, hs]
      | cons q post' =>
        rw [List.nil_append]
        exact execute_sequence_ret (by simp) hs rfl
    · intro v store2 hs
      rw [List.nil_append, execute_sequence_last, hs]
  | cons p pre' ih =>
    intro hpre
    cases fuel with
    | zero => simp only [run_statements] at hpre; cases hpre
    | succ k =>
      simp only [run_statements] at hpre
      cases hpe : execute k p env store with
      | error e => simp only [hpe] at hpre; cases hpre
      | ok pr =>
        obtain ⟨pv, store0⟩ := pr
        simp only [hpe] at hpre
        by_cases hret : is_return_value pv = true
        · rw [if_pos hret] at hpre; cases hpre
        · rw [if_neg hret] at hpre
          have hretf : is_return_value pv = false := by
            cases hiv : is_return_value pv
            · rfl
            · exact absurd hiv hret
          have ihh := ih k store0 hpre
          constructor
          · intro post c store2 hs
            rw [List.cons_append, execute_sequence_step (by simp) hpe hretf]
            exact ihh.1 post c store2 hs
          · intro v store2 hs
            rw [List.cons_append, execute_sequence_step (by simp) hpe hretf]
            exact ihh.2 v store2 hs

theorem sequence_return_short_circuit_witness :
    execute_sequence 5 [AStmt.lit (Lit.num 1), AStmt.ret (AStmt.lit (Lit.num 2)),
        AStmt.lit (Lit.num 3)] [] []
      = .ok (Value.return_value (Value.num 2), []) :=
  (sequence_return_short_circuit [AStmt.lit (Lit.num 1)] 5 3
    (AStmt.ret (AStmt.lit (Lit.num 2))) [] [] [] rfl).1
    [AStmt.lit (Lit.num 3)] (Value.num 2) [] rfl

/-- Claim C6: `eval_toplevel` wraps the program in an implicit block —
executing it in a fresh frame holding the program's direct local names,
layered on the global environment — and evaluates it; a Return Value
marker reaching the top level raises the `return not allowed outside of
function definitions` error, and any other value is returned unchanged. -/
theorem toplevel_wraps_block_and_rejects_return
    (fuel : Nat) (stmt : Stmt) (locals : List String) (ab : AStmt)
    (v : Value) (store' : Store)
    (hln : local_names stmt = .ok locals)
    (hab : analyze stmt = .ok ab)
    (hex : execute fuel ab
        (enclose_by (Frame.mk locals (make_addrs the_global_store locals.length))
          the_global_environment)
        (the_global_store ++ locals.map (fun _ => none)) = .ok (v, store')) :
    eval_toplevel (fuel + 1) stmt =
      if is_return_value v then .error .returnOutsideFunction else .ok v := by
  unfold eval_toplevel evaluate
  simp only [analyze, hln, hab, execute,
    extend_environment_ok the_global_environment the_global_store
      (by simp : locals.length = (locals.map (fun _ => (none : Slot))).length),
    List.length_map, hex]

theorem toplevel_wraps_block_and_rejects_return_witness :
    eval_toplevel 3 (Stmt.ret (Stmt.lit (Lit.num 1))) = .error .returnOutsideFunction := by
  rw [toplevel_wraps_block_and_rejects_return 2 (Stmt.ret (Stmt.lit (Lit.num 1)))
    [] (AStmt.ret (AStmt.lit (Lit.num 1))) (Value.return_value (Value.num 1))
    (the_global_store ++ List.map (fun _ => none) []) rfl rfl rfl]
  rfl

/-- Claim C7: a block or function body whose direct statements declare the
same constant name twice (outside nested blocks or functions) is rejected
while the local names are collected, that is, during `analyze`, before any
statement of the scope is executed: `local_names` itself fails with a
`multiple declarations` error, and both `analyze` of the surrounding block
and of a function definition with that body propagate it. -/
theorem duplicate_local_declaration_is_static_error
    (stmts : List Stmt) (i j : Nat) (n : String) (v1 v2 : Stmt) (ps : List String)
    (hij : i < j)
    (hi : stmts[i]? = some (Stmt.constDecl n v1))
    (hj : stmts[j]? = some (Stmt.constDecl n v2)) :
    (∃ m, local_names (Stmt.seq stmts) = .error (.multipleDecls m))
    ∧ (∃ m, analyze (Stmt.block (Stmt.seq stmts)) = .error (.multipleDecls m))
    ∧ (∃ m, analyze (Stmt.funcDef ps (Stmt.seq stmts)) = .error (.multipleDecls m)) := by
  have hln : ∃ m, local_names_seq stmts = .error (.multipleDecls m) := by
    rcases local_names_seq_total stmts with ⟨l, hl⟩ | hm
    · exact (local_names_seq_no_dup hl i j n v1 v2 hij hi hj).elim
    · exact hm
  obtain ⟨m, hm⟩ := hln
  refine ⟨⟨m, ?_⟩, ⟨m, ?_⟩, ⟨m, ?_⟩⟩
  · simp only [local_names]
    exact hm
  · simp only [analyze, local_names, hm]
  · simp only [analyze, local_names, hm]

theorem duplicate_local_declaration_is_static_error_witness :
    ∃ m, analyze (Stmt.block (Stmt.seq [Stmt.constDecl "a" (Stmt.lit (Lit.num 1)),
        Stmt.constDecl "a" (Stmt.lit (Lit.num 2))]))
      = .error (.multipleDecls m) :=
  (duplicate_local_declaration_is_static_error
    [Stmt.constDecl "a" (Stmt.lit (Lit.num 1)), Stmt.constDecl "a" (Stmt.lit (Lit.num 2))]
    0 1 "a" (Stmt.lit (Lit.num 1)) (Stmt.lit (Lit.num 2)) [] (by decide) rfl rfl).2.1

/-- Claim C8: when a compound call's frame has been built and the body
executes to a result, the call returns the Return Value marker's unwrapped
content if the result is a marker, and the `undefined` value if the body
finished without one; moreover, for a grammar-shaped body and an ok store,
the returned content is itself never a Return Value marker — a return
statement wraps its expression's value exactly once. -/
theorem application_unwraps_return_marker
    (fuel : Nat) (ps ls : List String) (body : AStmt) (fenv : Env)
    (args : List Value) (store : Store) (names : List String) (env1 : Env)
    (store1 : Store) (r : Value) (store2 : Store)
    (hnames : insert_all ps ls = .ok names)
    (hext : extend_environment names (args.map some ++ ls.map (fun _ => none))
        fenv store = .ok (env1, store1))
    (hbody : execute fuel body env1 store1 = .ok (r, store2)) :
    (execute_application (fuel + 1) (Value.compound ps ls body fenv) args store =
      .ok (if is_return_value r then return_value_content r else Value.undef, store2))
    ∧ (is_stmt body = true → store_ok store1 = true →
      is_return_value (if is_return_value r then return_value_content r
        else Value.undef) = false) := by
  constructor
  · simp only [execute_application, hnames, hext, hbody]
    by_cases hret : is_return_value r = true
    · rw [if_pos hret, if_pos hret]
    · rw [if_neg hret, if_neg hret]
  · intro hwf hstore1
    obtain ⟨_, hres⟩ := (preservation fuel).2.1 body env1 store1 r store2 hwf hstore1 hbody
    rcases hres with hplain | ⟨c, rfl, hcp⟩
    · rw [if_neg (by simp [is_return_value_of_plain hplain])]
      rfl
    · rw [if_pos (show is_return_value (Value.return_value c) = true from rfl)]
      exact is_return_value_of_plain hcp

theorem application_unwraps_return_marker_witness :
    (execute_application 3 (Value.compound [] [] (AStmt.ret (AStmt.lit (Lit.num 7))) [])
        [] [] = .ok (Value.num 7, []))
    ∧ is_return_value (Value.num 7) = false := by
  have h := application_unwraps_return_marker 2 [] [] (AStmt.ret (AStmt.lit (Lit.num 7)))
    [] [] [] [] [Frame.mk [] []] [] (Value.return_value (Value.num 7)) []
    rfl rfl rfl
  exact ⟨h.1, h.2 rfl rfl⟩

/-- Claim C9: a compound function one of whose parameter names also occurs
among the direct local constant names of its body is created without
complaint — analysis only collects the body's locals and never compares
them with the parameters — but every application of it fails at call time
with the `multiple declarations` error, raised while `insert_all` merges
parameters and locals into the new frame's name list (before the arity is
even checked, hence for every argument list). -/
theorem param_local_collision_raises_at_call_time
    (ps ls : List String) (x : String) (body : Stmt) (ab : AStmt) (fenv : Env)
    (hfind : ps.find? (fun y => decide (y ∈ ls)) = some x)
    (hln : local_names body = .ok ls) (hab : analyze body = .ok ab) :
    (analyze (Stmt.funcDef ps body) = .ok (AStmt.funcDef ps ls ab))
    ∧ (∀ (fuel : Nat) (env : Env) (store : Store),
        execute (fuel + 1) (AStmt.funcDef ps ls ab) env store =
          .ok (make_compound_function ps ls ab env, store))
    ∧ (∀ (fuel : Nat) (args : List Value) (store : Store),
        execute_application (fuel + 1) (Value.compound ps ls ab fenv) args store
          = .error (.multipleDecls x)) := by
  refine ⟨?_, ?_, ?_⟩
  · simp only [analyze, hln, hab]
  · intro fuel env store
    simp only [execute]
  · intro fuel args store
    simp only [execute_application, insert_all_find_collision hfind]

theorem param_local_collision_raises_at_call_time_witness :
    (analyze (Stmt.funcDef ["a"] (Stmt.constDecl "a" (Stmt.lit (Lit.num 1))))
        = .ok (AStmt.funcDef ["a"] ["a"] (AStmt.constDecl "a" (AStmt.lit (Lit.num 1)))))
    ∧ (execute_application 1
        (Value.compound ["a"] ["a"] (AStmt.constDecl "a" (AStmt.lit (Lit.num 1))) []) [] []
        = .error (.multipleDecls "a")) := by
  have h := param_local_collision_raises_at_call_time ["a"] ["a"] "a"
    (Stmt.constDecl "a" (Stmt.lit (Lit.num 1)))
    (AStmt.constDecl "a" (AStmt.lit (Lit.num 1))) [] rfl rfl rfl
  exact ⟨h.1, h.2.2 0 [] []⟩

/-- Claim C10: the innermost frame containing a name fully shadows every
enclosing frame: when the first occurrence of the name in the innermost
frame still holds the uninitialised sentinel, lookup raises `Name used
before declaration:` for every enclosing environment — even one holding
an initialised binding of the same name. -/
theorem inner_uninitialized_shadows_outer
    (name : String) (f : Frame) (rest : Env) (store : Store) (a : Nat)
    (hmem : name ∈ f.names)
    (hidx : f.addrs[f.names.indexOf name]? = some a)
    (hslot : store[a]? = some none) :
    lookup_name_value name (f :: rest) store = .error (.usedBeforeDecl name) := by
  simp only [lookup_name_value, lookup_scan_eq_some hmem hidx, hslot]

theorem inner_uninitialized_shadows_outer_witness :
    lookup_name_value "x" [Frame.mk ["x"] [0], Frame.mk ["x"] [1]]
        [none, some (Value.num 1)] = .error (.usedBeforeDecl "x") :=
  inner_uninitialized_shadows_outer "x" (Frame.mk ["x"] [0]) [Frame.mk ["x"] [1]]
    [none, some (Value.num 1)] 0 (by decide) rfl rfl
